import Mathlib

/-!
Shallow embedding of `simple_vector.h`: a `RawMemory<T>` block owner and a
`SimpleVector<T>` dynamic array built on top of it.

A buffer is a list of slots; a slot is `some v` when a live (constructed)
element with value `v` occupies it and `none` when the slot is raw
(uninitialized or already destroyed) memory.  The length of the list is the
capacity of the block.  Every primitive that the C++ code performs on a slot
(placement-construction, destruction, assignment, reading) is modelled as a
fallible operation: it returns `none` exactly when the C++ call would be
undefined behavior (constructing over a live object, destroying or assigning
to a dead slot, reading a dead slot, going out of bounds).
-/

/-- Reading a live value at slot `i` (what `std::move`/copy sources and
`operator[]` reads do).  Reading a dead slot or out of bounds is UB. -/
def readSlot {T : Type} (buf : List (Option T)) (i : Nat) : Option T :=
  match buf[i]? with
  | some (some v) => some v
  | _ => none

/-- Placement-`new` of value `v` at slot `i` (`std::construct_at`): the slot
must exist and must not already hold a live element. -/
def constructAt {T : Type} (buf : List (Option T)) (i : Nat) (v : T) :
    Option (List (Option T)) :=
  match buf[i]? with
  | some none => some (buf.set i (some v))
  | _ => none

/-- Destruction of the element at slot `i` (`std::destroy_at`): the slot must
hold a live element. -/
def destroySlot {T : Type} (buf : List (Option T)) (i : Nat) :
    Option (List (Option T)) :=
  match buf[i]? with
  | some (some _) => some (buf.set i none)
  | _ => none

/-- Assignment `buf[i] = v` (copy/move assignment into a live element): the
target slot must hold a live element. -/
def assignSlot {T : Type} (buf : List (Option T)) (i : Nat) (v : T) :
    Option (List (Option T)) :=
  match buf[i]? with
  | some (some _) => some (buf.set i (some v))
  | _ => none

/-- Move/copy assignment between two slots of the same buffer,
`buf[dst] = buf[src]`: both slots must hold live elements (the value model
keeps the source value in place; the code only ever overwrites or destroys
it afterwards). -/
def moveAssignSlot {T : Type} (buf : List (Option T)) (dst src : Nat) :
    Option (List (Option T)) :=
  match readSlot buf src with
  | some v => assignSlot buf dst v
  | none => none

/-- `std::destroy_n(buf + start, n)`: destroy the `n` consecutive elements
beginning at slot `start`. -/
def destroyN {T : Type} (buf : List (Option T)) (start n : Nat) :
    Option (List (Option T)) :=
  match n with
  | 0 => some buf
  | m + 1 => (destroySlot buf start).bind fun b => destroyN b (start + 1) m

/-- `std::uninitialized_move_n` / `std::uninitialized_copy_n` from `src + s0`
into `dst + d0`, `n` elements, in the case where every element operation
succeeds (the move branch of the code's move-if-noexcept dispatch, or a copy
that does not throw): reads `n` live source slots and placement-constructs
the values into `n` raw destination slots. -/
def relocateN {T : Type} (src dst : List (Option T)) (s0 d0 n : Nat) :
    Option (List (Option T)) :=
  match n with
  | 0 => some dst
  | m + 1 =>
    (readSlot src s0).bind fun v =>
    (constructAt dst d0 v).bind fun dst1 =>
    relocateN src dst1 (s0 + 1) (d0 + 1) m

/-- `std::uninitialized_value_construct_n(buf + i, n)` with `d` the
value-initialized element (`T()`). -/
def constructN {T : Type} (buf : List (Option T)) (i n : Nat) (d : T) :
    Option (List (Option T)) :=
  match n with
  | 0 => some buf
  | m + 1 => (constructAt buf i d).bind fun b => constructN b (i + 1) m d

/-- `std::move_backward(buf + first, buf + first + c, buf + first + c + 1)`:
performs the `c` move-assignments `buf[first+c] = buf[first+c-1]`, ...,
`buf[first+1] = buf[first]`, highest destination first. -/
def moveBackwardN {T : Type} (buf : List (Option T)) (first : Nat) :
    Nat → Option (List (Option T))
  | 0 => some buf
  | c + 1 =>
    (moveAssignSlot buf (first + c + 1) (first + c)).bind fun b =>
    moveBackwardN b first c

/-- `std::move(buf + pos + 1, buf + pos + 1 + n, buf + pos)`: performs the
`n` move-assignments `buf[pos] = buf[pos+1]`, ..., `buf[pos+n-1] = buf[pos+n]`,
lowest destination first. -/
def moveForwardN {T : Type} (buf : List (Option T)) (pos : Nat) :
    Nat → Option (List (Option T))
  | 0 => some buf
  | n + 1 =>
    (moveAssignSlot buf pos (pos + 1)).bind fun b =>
    moveForwardN b (pos + 1) n

/-- The assignment loop `for (i = 0; i < n; ++i) dst[i] = src[i];` of
`SimpleVector::operator=` (both operands' slots must be live), started at
index `i`. -/
def assignN {T : Type} (dst src : List (Option T)) (i n : Nat) :
    Option (List (Option T)) :=
  match n with
  | 0 => some dst
  | m + 1 =>
    (readSlot src i).bind fun v =>
    (assignSlot dst i v).bind fun d =>
    assignN d src (i + 1) m

/-- `RawMemory<T>`: `buffer` is the owned block (`none` models a null
pointer, `some slots` a block of `slots.length` raw slots), `capacity_` the
stored capacity.  The members are default-initialized to
`buffer_ = nullptr, capacity_ = 0`. -/
structure RawMemory (T : Type) where
  buffer : Option (List (Option T))
  capacity : Nat
deriving DecidableEq

/-- `std::uninitialized_move_n(srcPtr, n, dstPtr)` at the raw-pointer level,
as used by `RawMemory`'s move operations: moving `n > 0` elements
dereferences both pointers (null is UB) and requires `n` live source slots
and `n` raw destination slots; moving zero elements touches neither
pointer. -/
def uninitMovePtr {T : Type} (src dst : Option (List (Option T))) (n : Nat) :
    Option (Option (List (Option T)) × Option (List (Option T))) :=
  if n = 0 then some (src, dst)
  else
    match src, dst with
    | some s, some d => (relocateN s d 0 0 n).map fun d1 => (some s, some d1)
    | _, _ => none

/-- `RawMemory(RawMemory&& other)`: the member initializer list sets only
`capacity_(other.capacity_)`, so the destination's `buffer_` stays at its
default `nullptr`; the body then runs
`std::uninitialized_move_n(other.buffer_, capacity_, buffer_)`.  Returns the
pair (destination, source-after-the-move), or `none` on UB. -/
def RawMemory.moveConstruct {T : Type} (other : RawMemory T) :
    Option (RawMemory T × RawMemory T) :=
  (uninitMovePtr other.buffer none other.capacity).map fun p =>
    ({ buffer := p.2, capacity := other.capacity },
     { other with buffer := p.1 })

/-- `RawMemory::operator=(RawMemory&& rhs)`: sets `capacity_ = rhs.capacity_`
then runs `std::uninitialized_move_n(rhs.buffer_, capacity_, buffer_)` into
whatever block `this` already held.  Returns (destination, source), or
`none` on UB. -/
def RawMemory.moveAssign {T : Type} (lhs rhs : RawMemory T) :
    Option (RawMemory T × RawMemory T) :=
  (uninitMovePtr rhs.buffer lhs.buffer rhs.capacity).map fun p =>
    ({ buffer := p.2, capacity := rhs.capacity },
     { rhs with buffer := p.1 })

/-- `SimpleVector<T>`: the owned buffer (`data_`, its length is the
capacity) and the live-element count `size_`. -/
structure SimpleVector (T : Type) where
  data : List (Option T)
  size : Nat
deriving DecidableEq

namespace SimpleVector

/-- `SimpleVector()` — capacity 0, size 0. -/
def empty (T : Type) : SimpleVector T := ⟨[], 0⟩

/-- `SimpleVector(size_t size)`: allocates a fresh block of `n` raw slots,
then `std::uninitialized_value_construct_n(data_.GetAddress(), size_)`;
`d` is the value-initialized element. -/
def mkSized {T : Type} (n : Nat) (d : T) : Option (SimpleVector T) :=
  (constructN (List.replicate n none) 0 n d).map fun b => ⟨b, n⟩

/-- `SimpleVector(const SimpleVector& other)`: allocates capacity
`other.size_` and runs
`std::uninitialized_copy_n(other.data_.GetAddress(), size_, data_.GetAddress())`. -/
def copyCtor {T : Type} (other : SimpleVector T) : Option (SimpleVector T) :=
  (relocateN other.data (List.replicate other.size none) 0 0 other.size).map
    fun nd => ⟨nd, other.size⟩

/-- `SimpleVector(SimpleVector&& other)`: a default-constructed vector
swapped with `other`; returns (the new vector, `other` afterwards). -/
def moveCtor {T : Type} (other : SimpleVector T) :
    SimpleVector T × SimpleVector T :=
  (other, empty T)

/-- `Swap`: exchanges `data_` and `size_` wholesale. -/
def swapOp {T : Type} (a b : SimpleVector T) :
    SimpleVector T × SimpleVector T :=
  (b, a)

/-- The storage-reusing branch of `operator=(const SimpleVector& rhs)`
(taken when `rhs.size_ <= data_.Capacity()`), exactly as written: when
shrinking it calls `std::destroy_n(data_.GetAddress(), size_ - rhs.size_)`
(note: starting at address 0) and then assigns `data_[i] = rhs.data_[i]`
for `i < rhs.size_`; otherwise it assigns the first `size_` slots and then
runs `std::uninitialized_copy_n(rhs.data_.GetAddress(), rhs.size_ - size_,
data_.GetAddress())` (note: both offsets 0). -/
def copyAssignReuse {T : Type} (lhs rhs : SimpleVector T) :
    Option (SimpleVector T) :=
  if rhs.size < lhs.size then
    (destroyN lhs.data 0 (lhs.size - rhs.size)).bind fun d1 =>
    (assignN d1 rhs.data 0 rhs.size).map fun d2 => ⟨d2, rhs.size⟩
  else
    (assignN lhs.data rhs.data 0 lhs.size).bind fun d1 =>
    (relocateN rhs.data d1 0 0 (rhs.size - lhs.size)).map fun d2 =>
      ⟨d2, rhs.size⟩

/-- `operator=(const SimpleVector& rhs)` for distinct objects: if
`rhs.size_ > data_.Capacity()`, build a full copy of `rhs` and swap it in;
otherwise reuse the storage. -/
def copyAssign {T : Type} (lhs rhs : SimpleVector T) :
    Option (SimpleVector T) :=
  if lhs.data.length < rhs.size then copyCtor rhs
  else copyAssignReuse lhs rhs

/-- `operator=(const SimpleVector&)` including the `this != &rhs` guard;
`same` models whether the two references alias the same object. -/
def copyAssignOp {T : Type} (lhs rhs : SimpleVector T) (same : Bool) :
    Option (SimpleVector T) :=
  if same then some lhs else copyAssign lhs rhs

/-- `operator=(SimpleVector&& rhs)` including the `this != &rhs` guard:
when distinct it is a `Swap`; returns (lhs afterwards, rhs afterwards). -/
def moveAssignOp {T : Type} (lhs rhs : SimpleVector T) (same : Bool) :
    SimpleVector T × SimpleVector T :=
  if same then (lhs, rhs) else swapOp lhs rhs

/-- `Reserve(new_capacity)`: no-op when `new_capacity <= data_.Capacity()`;
otherwise allocate a fresh block of `new_capacity` raw slots, relocate the
`size_` live elements into it (move-if-noexcept; modelled for the case in
which every element operation succeeds), destroy the old elements and adopt
the new block. -/
def Reserve {T : Type} (v : SimpleVector T) (new_capacity : Nat) :
    Option (SimpleVector T) :=
  if new_capacity ≤ v.data.length then some v
  else
    (relocateN v.data (List.replicate new_capacity none) 0 0 v.size).bind
      fun nd =>
    (destroyN v.data 0 v.size).map fun _ => ⟨nd, v.size⟩

/-- `Resize(new_size)` exactly as written: when shrinking it calls
`std::destroy_n(data_.GetAddress(), size_ - new_size)` (starting at
address 0); when growing it calls `Reserve(new_size)` and then
`std::uninitialized_value_construct_n(data_.GetAddress(), new_size - size_)`
(again starting at address 0); finally `size_ = new_size`.  `d` is the
value-initialized element. -/
def Resize {T : Type} (v : SimpleVector T) (d : T) (new_size : Nat) :
    Option (SimpleVector T) :=
  if new_size < v.size then
    (destroyN v.data 0 (v.size - new_size)).map fun b => ⟨b, new_size⟩
  else if v.size < new_size then
    (Reserve v new_size).bind fun v1 =>
    (constructN v1.data 0 (new_size - v.size) d).map fun b => ⟨b, new_size⟩
  else some v

/-- `PushBack(value)` (both overloads coincide in the value model when the
element operations succeed): with spare capacity, construct `value` at slot
`size_`; when full, allocate `size_ == 0 ? 1 : size_ * 2` raw slots,
construct `value` at slot `size_` of the new block first, relocate the old
elements, destroy them and adopt the new block; finally `++size_`. -/
def PushBack {T : Type} (v : SimpleVector T) (value : T) :
    Option (SimpleVector T) :=
  if v.size ≠ v.data.length then
    (constructAt v.data v.size value).map fun b => ⟨b, v.size + 1⟩
  else
    (constructAt (List.replicate (if v.size = 0 then 1 else v.size * 2) none)
        v.size value).bind fun nd1 =>
    (relocateN v.data nd1 0 0 v.size).bind fun nd2 =>
    (destroyN v.data 0 v.size).map fun _ => ⟨nd2, v.size + 1⟩

/-- Repeated `PushBack` of the values of `vals`, in order. -/
def pushAll {T : Type} (v : SimpleVector T) (vals : List T) :
    Option (SimpleVector T) :=
  match vals with
  | [] => some v
  | x :: xs => (PushBack v x).bind fun v1 => pushAll v1 xs

/-- Outcome of an append whose element constructor may throw. -/
inductive AppendOutcome (T : Type) where
  /-- the call returned normally with this vector state -/
  | ok (v : SimpleVector T)
  /-- the element constructor threw; `v` is the vector state at the moment
  the exception propagates out of the call -/
  | failed (v : SimpleVector T)
  /-- undefined behavior -/
  | ub
deriving DecidableEq

/-- `EmplaceBack(args...)` (and the full path of both `PushBack` overloads)
with a fallible element constructor: `mk = some x` means the constructor
produces `x`, `mk = none` means it throws.  With spare capacity the element
is constructed at slot `size_`; when full, a new block of
`size_ == 0 ? 1 : size_ * 2` raw slots is allocated and the new element is
constructed at slot `size_` of the new block before any existing element is
relocated; if the constructor throws the new block is simply deallocated as
the exception propagates. -/
def EmplaceBack {T : Type} (v : SimpleVector T) (mk : Option T) :
    AppendOutcome T :=
  if v.size ≠ v.data.length then
    match mk with
    | none => .failed v
    | some x =>
      match constructAt v.data v.size x with
      | none => .ub
      | some b => .ok ⟨b, v.size + 1⟩
  else
    match mk with
    | none => .failed v
    | some x =>
      match constructAt
          (List.replicate (if v.size = 0 then 1 else v.size * 2) none)
          v.size x with
      | none => .ub
      | some nd1 =>
        match relocateN v.data nd1 0 0 v.size with
        | none => .ub
        | some nd2 =>
          match destroyN v.data 0 v.size with
          | none => .ub
          | some _ => .ok ⟨nd2, v.size + 1⟩

/-- `PopBack()` exactly as written: `std::destroy_at(data_.GetAddress())`
(the element at address 0), then `--size_`. -/
def PopBack {T : Type} (v : SimpleVector T) : Option (SimpleVector T) :=
  (destroySlot v.data 0).map fun b => ⟨b, v.size - 1⟩

/-- `Emplace(pos, args...)` for the case in which every element operation
succeeds (`x` is the constructed value), with `pos` the index
`dist_to_pos`.  With spare capacity and `pos < size_`: construct a
temporary, move-construct the last element into slot `size_`,
`std::move_backward` the range `[pos, size_-1)` one slot rightward, then
move-assign the temporary into slot `pos`; with spare capacity and
`pos >= size_`: construct directly at slot `pos`.  When full: allocate
`size_ == 0 ? 1 : size_ * 2` raw slots, construct the new element at slot
`pos` of the new block, relocate `[0, pos)` to `[0, pos)` and `[pos, size_)`
to `[pos+1, size_+1)`, destroy the old elements and adopt the new block. -/
def Emplace {T : Type} (v : SimpleVector T) (pos : Nat) (x : T) :
    Option (SimpleVector T) :=
  if v.size < v.data.length then
    if pos < v.size then
      (readSlot v.data (v.size - 1)).bind fun last =>
      (constructAt v.data v.size last).bind fun d1 =>
      (moveBackwardN d1 pos (v.size - 1 - pos)).bind fun d2 =>
      (assignSlot d2 pos x).map fun d3 => ⟨d3, v.size + 1⟩
    else
      (constructAt v.data pos x).map fun d1 => ⟨d1, v.size + 1⟩
  else
    (constructAt (List.replicate (if v.size = 0 then 1 else v.size * 2) none)
        pos x).bind fun nd1 =>
    (relocateN v.data nd1 0 0 pos).bind fun nd2 =>
    (relocateN v.data nd2 pos (pos + 1) (v.size - pos)).bind fun nd3 =>
    (destroyN v.data 0 v.size).map fun _ => ⟨nd3, v.size + 1⟩

/-- `Erase(pos)`: `std::move(begin() + pos + 1, end(), begin() + pos)`,
then destroy the last slot and `--size_`. -/
def Erase {T : Type} (v : SimpleVector T) (pos : Nat) :
    Option (SimpleVector T) :=
  (moveForwardN v.data pos (v.size - pos - 1)).bind fun b =>
  (destroySlot b (v.size - 1)).map fun b1 => ⟨b1, v.size - 1⟩

end SimpleVector

/-- Outcome of one `std::uninitialized_copy_n` whose element copy
constructor may throw. -/
inductive CopyNOutcome (T : Type) where
  /-- all `n` elements were copy-constructed -/
  | ok (dst : List (Option T))
  /-- a copy constructor threw; `dst` is the destination block after
  `uninitialized_copy_n` destroyed the elements it had itself constructed -/
  | thrown (dst : List (Option T))
  /-- undefined behavior -/
  | ub
deriving DecidableEq

/-- `std::uninitialized_copy_n(src + s0, n, dst + d0)` with the fallible
element copy constructor `copy` (`copy v = none` models a throw): on a
throw the call destroys the elements it had already constructed before
letting the exception propagate. -/
def uninitCopyN {T : Type} (copy : T → Option T) (src dst : List (Option T))
    (s0 d0 n : Nat) : CopyNOutcome T :=
  match n with
  | 0 => .ok dst
  | m + 1 =>
    match readSlot src s0 with
    | none => .ub
    | some v =>
      match copy v with
      | none => .thrown dst
      | some w =>
        match constructAt dst d0 w with
        | none => .ub
        | some dst1 =>
          match uninitCopyN copy src dst1 (s0 + 1) (d0 + 1) m with
          | .ok d => .ok d
          | .thrown d =>
            match destroySlot d d0 with
            | some d1 => .thrown d1
            | none => .ub
          | .ub => .ub

/-- Outcome of the reallocating `Emplace` path when relocation may throw. -/
inductive ReallocOutcome (T : Type) where
  /-- the call returned normally -/
  | ok (v : SimpleVector T)
  /-- an element copy threw; `newBuf` is the state of the freshly allocated
  block at the moment the exception propagates (the block itself is then
  deallocated), `old` the untouched original vector -/
  | failed (newBuf : List (Option T)) (old : SimpleVector T)
  /-- undefined behavior -/
  | ub
deriving DecidableEq

/-- The full-buffer (reallocating) path of `Emplace(pos, args...)` in the
copy-relocation case of move-if-noexcept (taken when `T` is copy
constructible and its move constructor may throw), with the fallible element
copy constructor `copy`; `x` is the already-constructed new element.
Exactly as written: construct `x` at slot `pos` of the new block; relocate
`[0, pos)` with `uninitialized_copy_n` and on a throw destroy the new
element (`std::destroy_n(new_data + pos, 1)`) before propagating; relocate
`[pos, size_)` to `[pos+1, size_+1)` with `uninitialized_copy_n` and on a
throw run `std::destroy_n(new_data.GetAddress(), pos)` before propagating;
on success destroy the old elements and adopt the new block. -/
def emplaceRealloc {T : Type} (copy : T → Option T) (v : SimpleVector T)
    (pos : Nat) (x : T) : ReallocOutcome T :=
  match constructAt (List.replicate (if v.size = 0 then 1 else v.size * 2) none)
      pos x with
  | none => .ub
  | some nd1 =>
    match uninitCopyN copy v.data nd1 0 0 pos with
    | .ub => .ub
    | .thrown nd2 =>
      match destroySlot nd2 pos with
      | some nd3 => .failed nd3 v
      | none => .ub
    | .ok nd2 =>
      match uninitCopyN copy v.data nd2 pos (pos + 1) (v.size - pos) with
      | .ub => .ub
      | .thrown nd3 =>
        match destroyN nd3 0 pos with
        | some nd4 => .failed nd4 v
        | none => .ub
      | .ok nd3 =>
        match destroyN v.data 0 v.size with
        | some _ => .ok ⟨nd3, v.size + 1⟩
        | none => .ub

/-- A vector state is well formed with element list `l` when its buffer
holds exactly the elements of `l` in the first `l.length` slots, all
remaining slots are raw, and `size_ = l.length`. -/
def WF {T : Type} (v : SimpleVector T) (l : List T) : Prop :=
  ∃ k, v.data = l.map some ++ List.replicate k none ∧ v.size = l.length

/-! ### Basic facts about the slot primitives -/

theorem readSlot_eq_some {T : Type} {buf : List (Option T)} {i : Nat} {w : T} :
    readSlot buf i = some w ↔ buf[i]? = some (some w) := by
  unfold readSlot
  rcases h : buf[i]? with _ | (_ | u) <;> simp

theorem constructAt_eq_some {T : Type} {buf : List (Option T)} {i : Nat}
    {v : T} {out : List (Option T)} :
    constructAt buf i v = some out ↔
      buf[i]? = some none ∧ out = buf.set i (some v) := by
  unfold constructAt
  rcases h : buf[i]? with _ | (_ | u) <;> simp [eq_comm]

theorem destroySlot_eq_some {T : Type} {buf : List (Option T)} {i : Nat}
    {out : List (Option T)} :
    destroySlot buf i = some out ↔
      (∃ w, buf[i]? = some (some w)) ∧ out = buf.set i none := by
  unfold destroySlot
  rcases h : buf[i]? with _ | (_ | u) <;> simp [eq_comm]

theorem assignSlot_eq_some {T : Type} {buf : List (Option T)} {i : Nat}
    {v : T} {out : List (Option T)} :
    assignSlot buf i v = some out ↔
      (∃ w, buf[i]? = some (some w)) ∧ out = buf.set i (some v) := by
  unfold assignSlot
  rcases h : buf[i]? with _ | (_ | u) <;> simp [eq_comm]

theorem moveAssignSlot_eq_some {T : Type} {buf : List (Option T)}
    {dst src : Nat} {out : List (Option T)} :
    moveAssignSlot buf dst src = some out ↔
      ∃ v, buf[src]? = some (some v) ∧ (∃ w, buf[dst]? = some (some w)) ∧
        out = buf.set dst (some v) := by
  unfold moveAssignSlot
  rcases h : readSlot buf src with _ | v
  · constructor
    · intro hc; cases hc
    · rintro ⟨v, hv, _, _⟩
      rw [(@readSlot_eq_some _ buf src v).mpr hv] at h; cases h
  · rw [readSlot_eq_some] at h
    simp [assignSlot_eq_some, h]

/-- Index lookup in a well-formed buffer: live elements of `l` in the first
`l.length` slots, then `k` raw slots. -/
theorem bufAt {T : Type} (l : List T) (k j : Nat) :
    (l.map some ++ List.replicate k none)[j]? =
      if j < l.length then Option.map some l[j]?
      else if j < l.length + k then some none else none := by
  rw [List.getElem?_append]
  simp only [List.length_map, List.getElem?_map, List.getElem?_replicate]
  by_cases h : j < l.length
  · simp [h]
  · simp only [h, if_false]
    by_cases h2 : j < l.length + k
    · have h3 : j - l.length < k := by omega
      simp [h2, h3]
    · have h3 : ¬ j - l.length < k := by omega
      simp [h2, h3]

theorem bufAt_live {T : Type} {l : List T} {k j : Nat} (h : j < l.length) :
    ∃ w, (l.map some ++ List.replicate k none)[j]? = some (some w) := by
  refine ⟨l[j], ?_⟩
  rw [bufAt]
  simp [h, List.getElem?_eq_getElem h]

/-! ### Length preservation -/

theorem destroyN_length {T : Type} :
    ∀ (n : Nat) (buf out : List (Option T)) (start : Nat),
      destroyN buf start n = some out → out.length = buf.length := by
  intro n
  induction n with
  | zero => intro buf out start h; cases h; rfl
  | succ m ih =>
    intro buf out start h
    unfold destroyN at h
    rcases ho : destroySlot buf start with _ | b
    · rw [ho] at h; cases h
    · rw [ho] at h
      simp only [Option.some_bind] at h
      have hb := (destroySlot_eq_some.mp ho).2
      have := ih b out (start + 1) h
      rw [this, hb, List.length_set]

theorem relocateN_length {T : Type} :
    ∀ (n : Nat) (src dst out : List (Option T)) (s0 d0 : Nat),
      relocateN src dst s0 d0 n = some out → out.length = dst.length := by
  intro n
  induction n with
  | zero => intro src dst out s0 d0 h; cases h; rfl
  | succ m ih =>
    intro src dst out s0 d0 h
    unfold relocateN at h
    rcases hr : readSlot src s0 with _ | v <;> rw [hr] at h
    · cases h
    · simp only [Option.some_bind] at h
      rcases hc : constructAt dst d0 v with _ | dst1 <;> rw [hc] at h
      · cases h
      · simp only [Option.some_bind] at h
        have hb := (constructAt_eq_some.mp hc).2
        have := ih src dst1 out (s0 + 1) (d0 + 1) h
        rw [this, hb, List.length_set]

theorem constructN_length {T : Type} :
    ∀ (n : Nat) (buf out : List (Option T)) (i0 : Nat) (d : T),
      constructN buf i0 n d = some out → out.length = buf.length := by
  intro n
  induction n with
  | zero => intro buf out i0 d h; cases h; rfl
  | succ m ih =>
    intro buf out i0 d h
    unfold constructN at h
    rcases hc : constructAt buf i0 d with _ | b <;> rw [hc] at h
    · cases h
    · simp only [Option.some_bind] at h
      have hb := (constructAt_eq_some.mp hc).2
      have := ih b out (i0 + 1) d h
      rw [this, hb, List.length_set]

theorem moveBackwardN_length {T : Type} :
    ∀ (c : Nat) (buf out : List (Option T)) (first : Nat),
      moveBackwardN buf first c = some out → out.length = buf.length := by
  intro c
  induction c with
  | zero => intro buf out first h; cases h; rfl
  | succ m ih =>
    intro buf out first h
    unfold moveBackwardN at h
    rcases hm : moveAssignSlot buf (first + m + 1) (first + m) with _ | b <;>
      rw [hm] at h
    · cases h
    · simp only [Option.some_bind] at h
      obtain ⟨v, _, _, hb⟩ := moveAssignSlot_eq_some.mp hm
      have := ih b out first h
      rw [this, hb, List.length_set]

theorem moveForwardN_length {T : Type} :
    ∀ (n : Nat) (buf out : List (Option T)) (pos : Nat),
      moveForwardN buf pos n = some out → out.length = buf.length := by
  intro n
  induction n with
  | zero => intro buf out pos h; cases h; rfl
  | succ m ih =>
    intro buf out pos h
    unfold moveForwardN at h
    rcases hm : moveAssignSlot buf pos (pos + 1) with _ | b <;> rw [hm] at h
    · cases h
    · simp only [Option.some_bind] at h
      obtain ⟨v, _, _, hb⟩ := moveAssignSlot_eq_some.mp hm
      have := ih b out (pos + 1) h
      rw [this, hb, List.length_set]

theorem assignN_length {T : Type} :
    ∀ (n : Nat) (dst src out : List (Option T)) (i0 : Nat),
      assignN dst src i0 n = some out → out.length = dst.length := by
  intro n
  induction n with
  | zero => intro dst src out i0 h; cases h; rfl
  | succ m ih =>
    intro dst src out i0 h
    unfold assignN at h
    rcases hr : readSlot src i0 with _ | v <;> rw [hr] at h
    · cases h
    · simp only [Option.some_bind] at h
      rcases ha : assignSlot dst i0 v with _ | d <;> rw [ha] at h
      · cases h
      · simp only [Option.some_bind] at h
        have hb := (assignSlot_eq_some.mp ha).2
        have := ih d src out (i0 + 1) h
        rw [this, hb, List.length_set]

/-! ### Pointwise specifications of the iterating primitives -/

theorem moveBackwardN_spec {T : Type} :
    ∀ (c : Nat) (buf : List (Option T)) (first : Nat),
      (∀ i, i ≤ c → ∃ w, buf[first + i]? = some (some w)) →
      ∃ out, moveBackwardN buf first c = some out ∧
        out.length = buf.length ∧
        ∀ j, out[j]? =
          if first + 1 ≤ j ∧ j ≤ first + c then buf[j - 1]? else buf[j]? := by
  intro c
  induction c with
  | zero =>
    intro buf first _
    refine ⟨buf, rfl, rfl, fun j => ?_⟩
    have : ¬ (first + 1 ≤ j ∧ j ≤ first + 0) := by omega
    rw [if_neg this]
  | succ c ih =>
    intro buf first H
    obtain ⟨ws, hws⟩ := H c (by omega)
    obtain ⟨wd, hwd⟩ := H (c + 1) (by omega)
    have hdlt : first + c + 1 < buf.length :=
      (List.getElem?_eq_some_iff.mp (by rw [← Nat.add_assoc] at hwd; exact hwd)).1
    have hmove : moveAssignSlot buf (first + c + 1) (first + c) =
        some (buf.set (first + c + 1) (some ws)) := by
      rw [moveAssignSlot_eq_some]
      exact ⟨ws, hws, ⟨wd, by rw [← Nat.add_assoc] at hwd; exact hwd⟩, rfl⟩
    set b := buf.set (first + c + 1) (some ws) with hb
    have hbAt : ∀ j, j ≠ first + c + 1 → b[j]? = buf[j]? := by
      intro j hj
      exact List.getElem?_set_ne (by omega)
    have hbTop : b[first + c + 1]? = some (some ws) :=
      List.getElem?_set_self hdlt
    obtain ⟨out, hout, hlen, hAt⟩ := ih b first (by
      intro i hi
      rw [hbAt (first + i) (by omega)]
      exact H i (by omega))
    refine ⟨out, ?_, ?_, ?_⟩
    · unfold moveBackwardN
      rw [hmove, Option.some_bind]
      exact hout
    · rw [hlen, hb, List.length_set]
    · intro j
      rw [hAt j]
      by_cases h1 : first + 1 ≤ j ∧ j ≤ first + c
      · have h2 : first + 1 ≤ j ∧ j ≤ first + (c + 1) := by omega
        rw [if_pos h1, if_pos h2, hbAt (j - 1) (by omega)]
      · by_cases h3 : j = first + c + 1
        · have h2 : first + 1 ≤ j ∧ j ≤ first + (c + 1) := by omega
          rw [if_neg h1, if_pos h2, h3, hbTop]
          have : first + c + 1 - 1 = first + c := by omega
          rw [this, hws]
        · have h2 : ¬ (first + 1 ≤ j ∧ j ≤ first + (c + 1)) := by omega
          rw [if_neg h1, if_neg h2, hbAt j h3]

theorem moveForwardN_spec {T : Type} :
    ∀ (n : Nat) (buf : List (Option T)) (pos : Nat),
      (∀ i, i ≤ n → ∃ w, buf[pos + i]? = some (some w)) →
      ∃ out, moveForwardN buf pos n = some out ∧
        out.length = buf.length ∧
        ∀ j, out[j]? =
          if pos ≤ j ∧ j < pos + n then buf[j + 1]? else buf[j]? := by
  intro n
  induction n with
  | zero =>
    intro buf pos _
    refine ⟨buf, rfl, rfl, fun j => ?_⟩
    have : ¬ (pos ≤ j ∧ j < pos + 0) := by omega
    rw [if_neg this]
  | succ n ih =>
    intro buf pos H
    obtain ⟨ws, hws⟩ := H 1 (by omega)
    obtain ⟨wd, hwd⟩ := H 0 (by omega)
    rw [Nat.add_zero] at hwd
    have hdlt : pos < buf.length := (List.getElem?_eq_some_iff.mp hwd).1
    have hmove : moveAssignSlot buf pos (pos + 1) =
        some (buf.set pos (some ws)) := by
      rw [moveAssignSlot_eq_some]
      exact ⟨ws, hws, ⟨wd, hwd⟩, rfl⟩
    set b := buf.set pos (some ws) with hb
    have hbAt : ∀ j, j ≠ pos → b[j]? = buf[j]? := by
      intro j hj
      exact List.getElem?_set_ne (by omega)
    have hbBot : b[pos]? = some (some ws) := List.getElem?_set_self hdlt
    obtain ⟨out, hout, hlen, hAt⟩ := ih b (pos + 1) (by
      intro i hi
      rw [hbAt (pos + 1 + i) (by omega)]
      have : pos + 1 + i = pos + (1 + i) := by omega
      rw [this]
      exact H (1 + i) (by omega))
    refine ⟨out, ?_, ?_, ?_⟩
    · unfold moveForwardN
      rw [hmove, Option.some_bind]
      exact hout
    · rw [hlen, hb, List.length_set]
    · intro j
      rw [hAt j]
      by_cases h1 : pos + 1 ≤ j ∧ j < pos + 1 + n
      · have h2 : pos ≤ j ∧ j < pos + (n + 1) := by omega
        rw [if_pos h1, if_pos h2, hbAt (j + 1) (by omega)]
      · by_cases h3 : j = pos
        · have h2 : pos ≤ j ∧ j < pos + (n + 1) := by omega
          rw [if_neg h1, if_pos h2, h3, hbBot, hws]
        · have h2 : ¬ (pos ≤ j ∧ j < pos + (n + 1)) := by omega
          rw [if_neg h1, if_neg h2, hbAt j h3]

theorem relocateN_spec {T : Type} :
    ∀ (n : Nat) (src dst : List (Option T)) (s0 d0 : Nat),
      (∀ i, i < n → ∃ w, src[s0 + i]? = some (some w)) →
      (∀ i, i < n → dst[d0 + i]? = some none) →
      ∃ out, relocateN src dst s0 d0 n = some out ∧
        out.length = dst.length ∧
        ∀ j, out[j]? =
          if d0 ≤ j ∧ j < d0 + n then src[s0 + (j - d0)]? else dst[j]? := by
  intro n
  induction n with
  | zero =>
    intro src dst s0 d0 _ _
    refine ⟨dst, rfl, rfl, fun j => ?_⟩
    have : ¬ (d0 ≤ j ∧ j < d0 + 0) := by omega
    rw [if_neg this]
  | succ n ih =>
    intro src dst s0 d0 Hs Hd
    obtain ⟨w, hw⟩ := Hs 0 (by omega)
    rw [Nat.add_zero] at hw
    have hd0 := Hd 0 (by omega)
    rw [Nat.add_zero] at hd0
    have hdlt : d0 < dst.length := (List.getElem?_eq_some_iff.mp hd0).1
    have hread : readSlot src s0 = some w := readSlot_eq_some.mpr hw
    have hcons : constructAt dst d0 w = some (dst.set d0 (some w)) :=
      constructAt_eq_some.mpr ⟨hd0, rfl⟩
    set b := dst.set d0 (some w) with hb
    have hbAt : ∀ j, j ≠ d0 → b[j]? = dst[j]? := by
      intro j hj
      exact List.getElem?_set_ne (by omega)
    have hbBot : b[d0]? = some (some w) := List.getElem?_set_self hdlt
    obtain ⟨out, hout, hlen, hAt⟩ := ih src b (s0 + 1) (d0 + 1)
      (by
        intro i hi
        have : s0 + 1 + i = s0 + (1 + i) := by omega
        rw [this]
        exact Hs (1 + i) (by omega))
      (by
        intro i hi
        rw [hbAt (d0 + 1 + i) (by omega)]
        have : d0 + 1 + i = d0 + (1 + i) := by omega
        rw [this]
        exact Hd (1 + i) (by omega))
    refine ⟨out, ?_, ?_, ?_⟩
    · unfold relocateN
      rw [hread, Option.some_bind, hcons, Option.some_bind]
      exact hout
    · rw [hlen, hb, List.length_set]
    · intro j
      rw [hAt j]
      by_cases h1 : d0 + 1 ≤ j ∧ j < d0 + 1 + n
      · have h2 : d0 ≤ j ∧ j < d0 + (n + 1) := by omega
        have h3 : s0 + 1 + (j - (d0 + 1)) = s0 + (j - d0) := by omega
        rw [if_pos h1, if_pos h2, h3]
      · by_cases h4 : j = d0
        · have h2 : d0 ≤ j ∧ j < d0 + (n + 1) := by omega
          rw [if_neg h1, if_pos h2, h4, hbBot]
          have : s0 + (d0 - d0) = s0 := by omega
          rw [this, hw]
        · have h2 : ¬ (d0 ≤ j ∧ j < d0 + (n + 1)) := by omega
          rw [if_neg h1, if_neg h2, hbAt j h4]

theorem destroyN_spec {T : Type} :
    ∀ (n : Nat) (buf : List (Option T)) (start : Nat),
      (∀ i, i < n → ∃ w, buf[start + i]? = some (some w)) →
      ∃ out, destroyN buf start n = some out ∧
        out.length = buf.length ∧
        ∀ j, out[j]? =
          if start ≤ j ∧ j < start + n then some none else buf[j]? := by
  intro n
  induction n with
  | zero =>
    intro buf start _
    refine ⟨buf, rfl, rfl, fun j => ?_⟩
    have : ¬ (start ≤ j ∧ j < start + 0) := by omega
    rw [if_neg this]
  | succ n ih =>
    intro buf start H
    obtain ⟨w, hw⟩ := H 0 (by omega)
    rw [Nat.add_zero] at hw
    have hlt : start < buf.length := (List.getElem?_eq_some_iff.mp hw).1
    have hdes : destroySlot buf start = some (buf.set start none) :=
      destroySlot_eq_some.mpr ⟨⟨w, hw⟩, rfl⟩
    set b := buf.set start none with hb
    have hbAt : ∀ j, j ≠ start → b[j]? = buf[j]? := by
      intro j hj
      exact List.getElem?_set_ne (by omega)
    have hbBot : b[start]? = some none := List.getElem?_set_self hlt
    obtain ⟨out, hout, hlen, hAt⟩ := ih b (start + 1) (by
      intro i hi
      rw [hbAt (start + 1 + i) (by omega)]
      have : start + 1 + i = start + (1 + i) := by omega
      rw [this]
      exact H (1 + i) (by omega))
    refine ⟨out, ?_, ?_, ?_⟩
    · unfold destroyN
      rw [hdes, Option.some_bind]
      exact hout
    · rw [hlen, hb, List.length_set]
    · intro j
      rw [hAt j]
      by_cases h1 : start + 1 ≤ j ∧ j < start + 1 + n
      · have h2 : start ≤ j ∧ j < start + (n + 1) := by omega
        rw [if_pos h1, if_pos h2]
      · by_cases h4 : j = start
        · have h2 : start ≤ j ∧ j < start + (n + 1) := by omega
          rw [if_neg h1, if_pos h2, h4, hbBot]
        · have h2 : ¬ (start ≤ j ∧ j < start + (n + 1)) := by omega
          rw [if_neg h1, if_neg h2, hbAt j h4]

theorem constructN_spec {T : Type} :
    ∀ (n : Nat) (buf : List (Option T)) (i0 : Nat) (d : T),
      (∀ i, i < n → buf[i0 + i]? = some none) →
      ∃ out, constructN buf i0 n d = some out ∧
        out.length = buf.length ∧
        ∀ j, out[j]? =
          if i0 ≤ j ∧ j < i0 + n then some (some d) else buf[j]? := by
  intro n
  induction n with
  | zero =>
    intro buf i0 d _
    refine ⟨buf, rfl, rfl, fun j => ?_⟩
    have : ¬ (i0 ≤ j ∧ j < i0 + 0) := by omega
    rw [if_neg this]
  | succ n ih =>
    intro buf i0 d H
    have hw := H 0 (by omega)
    rw [Nat.add_zero] at hw
    have hlt : i0 < buf.length := (List.getElem?_eq_some_iff.mp hw).1
    have hcons : constructAt buf i0 d = some (buf.set i0 (some d)) :=
      constructAt_eq_some.mpr ⟨hw, rfl⟩
    set b := buf.set i0 (some d) with hb
    have hbAt : ∀ j, j ≠ i0 → b[j]? = buf[j]? := by
      intro j hj
      exact List.getElem?_set_ne (by omega)
    have hbBot : b[i0]? = some (some d) := List.getElem?_set_self hlt
    obtain ⟨out, hout, hlen, hAt⟩ := ih b (i0 + 1) d (by
      intro i hi
      rw [hbAt (i0 + 1 + i) (by omega)]
      have : i0 + 1 + i = i0 + (1 + i) := by omega
      rw [this]
      exact H (1 + i) (by omega))
    refine ⟨out, ?_, ?_, ?_⟩
    · unfold constructN
      rw [hcons, Option.some_bind]
      exact hout
    · rw [hlen, hb, List.length_set]
    · intro j
      rw [hAt j]
      by_cases h1 : i0 + 1 ≤ j ∧ j < i0 + 1 + n
      · have h2 : i0 ≤ j ∧ j < i0 + (n + 1) := by omega
        rw [if_pos h1, if_pos h2]
      · by_cases h4 : j = i0
        · have h2 : i0 ≤ j ∧ j < i0 + (n + 1) := by omega
          rw [if_neg h1, if_pos h2, h4, hbBot]
        · have h2 : ¬ (i0 ≤ j ∧ j < i0 + (n + 1)) := by omega
          rw [if_neg h1, if_neg h2, hbAt j h4]

/-! ### Well-formed buffers -/

theorem bufAt_lt {T : Type} (l : List T) (k : Nat) {j : Nat}
    (h : j < l.length) :
    (l.map some ++ List.replicate k none)[j]? = Option.map some l[j]? := by
  rw [bufAt, if_pos h]

theorem bufAt_dead {T : Type} (l : List T) (k : Nat) {j : Nat}
    (h1 : l.length ≤ j) (h2 : j < l.length + k) :
    (l.map some ++ List.replicate k none)[j]? = some none := by
  rw [bufAt, if_neg (by omega), if_pos h2]

theorem bufAt_none {T : Type} (l : List T) (k : Nat) {j : Nat}
    (h : l.length + k ≤ j) :
    (l.map some ++ List.replicate k none)[j]? = none := by
  rw [bufAt, if_neg (by omega), if_neg (by omega)]

/-- A buffer whose lookups agree with the well-formed pattern is the
well-formed pattern. -/
theorem eq_wfBuf_of_pointwise {T : Type} {buf : List (Option T)} {l : List T}
    {k : Nat}
    (hlive : ∀ j, j < l.length → buf[j]? = Option.map some l[j]?)
    (hdead : ∀ j, l.length ≤ j → j < l.length + k → buf[j]? = some none)
    (hnone : ∀ j, l.length + k ≤ j → buf[j]? = none) :
    buf = l.map some ++ List.replicate k none := by
  apply List.ext_getElem?
  intro j
  rw [bufAt]
  by_cases h1 : j < l.length
  · rw [if_pos h1]; exact hlive j h1
  · rw [if_neg h1]
    by_cases h2 : j < l.length + k
    · rw [if_pos h2]; exact hdead j (by omega) h2
    · rw [if_neg h2]; exact hnone j (by omega)

theorem WF_length {T : Type} {v : SimpleVector T} {l : List T} (h : WF v l) :
    ∃ k, v.data.length = l.length + k ∧ v.size = l.length := by
  obtain ⟨k, hdata, hsize⟩ := h
  exact ⟨k, by rw [hdata]; simp, hsize⟩

/-- `PushBack` on a well-formed vector succeeds and appends the value. -/
theorem pushBack_WF {T : Type} {v : SimpleVector T} {l : List T} (x : T)
    (h : WF v l) :
    ∃ v1, SimpleVector.PushBack v x = some v1 ∧ WF v1 (l ++ [x]) := by
  obtain ⟨k, hdata, hsize⟩ := h
  have hlen : v.data.length = l.length + k := by rw [hdata]; simp
  rcases Nat.eq_zero_or_pos k with hk | hk
  · -- buffer full: reallocating path
    subst hk
    have hfull : ¬ v.size ≠ v.data.length := by omega
    set cap := if v.size = 0 then 1 else v.size * 2 with hcapdef
    have hcap : v.size < cap := by
      rcases Nat.eq_zero_or_pos v.size with h0 | h0
      · rw [hcapdef, if_pos h0]; omega
      · rw [hcapdef, if_neg (by omega)]; omega
    have hconsEl : (List.replicate cap (none : Option T))[v.size]? =
        some none := by
      rw [List.getElem?_replicate, if_pos hcap]
    set nd1 := (List.replicate cap (none : Option T)).set v.size (some x)
      with hnd1def
    have hcons : constructAt (List.replicate cap none) v.size x = some nd1 :=
      constructAt_eq_some.mpr ⟨hconsEl, rfl⟩
    have hnd1 : ∀ j, nd1[j]? =
        if j = v.size then some (some x)
        else if j < cap then some none else none := by
      intro j
      by_cases hj : j = v.size
      · subst hj
        rw [if_pos rfl, hnd1def]
        exact List.getElem?_set_self (by simpa using hcap)
      · rw [if_neg hj, hnd1def, List.getElem?_set_ne (by omega),
          List.getElem?_replicate]
    obtain ⟨nd2, hrel, hrellen, hrelAt⟩ :=
      relocateN_spec v.size v.data nd1 0 0
        (by
          intro i hi
          rw [Nat.zero_add]
          exact hdata ▸ bufAt_live (by omega))
        (by
          intro i hi
          rw [Nat.zero_add, hnd1 i, if_neg (by omega), if_pos (by omega)])
    obtain ⟨dd, hdes, _, _⟩ :=
      destroyN_spec v.size v.data 0
        (by
          intro i hi
          rw [Nat.zero_add]
          exact hdata ▸ bufAt_live (by omega))
    refine ⟨⟨nd2, v.size + 1⟩, ?_, ?_⟩
    · unfold SimpleVector.PushBack
      rw [if_neg hfull, ← hcapdef, hcons, Option.some_bind, hrel,
        Option.some_bind, hdes, Option.map_some']
    · refine ⟨cap - (v.size + 1), ?_, by simp [hsize]⟩
      have hnd1len : nd1.length = cap := by
        rw [hnd1def, List.length_set, List.length_replicate]
      have harith : (l ++ [x]).length = v.size + 1 := by
        simp [hsize]
      apply eq_wfBuf_of_pointwise
      · intro j hj
        rw [harith] at hj
        rw [hrelAt j]
        by_cases hjs : j < v.size
        · rw [if_pos (by omega), Nat.zero_add, Nat.sub_zero, hdata,
            bufAt_lt l 0 (by omega)]
          rw [List.getElem?_append, if_pos (show j < l.length by omega)]
        · have hje : j = v.size := by omega
          rw [if_neg (by omega), hnd1 j, if_pos hje, hje, hsize]
          rw [List.getElem?_concat_length]
          rfl
      · intro j hj1 hj2
        rw [harith] at hj1
        rw [harith] at hj2
        have hcapj : j < cap := by omega
        rw [hrelAt j, if_neg (by omega), hnd1 j, if_neg (by omega),
          if_pos hcapj]
      · intro j hj
        rw [harith] at hj
        have : ¬ j < cap := by omega
        rw [hrelAt j, if_neg (by omega), hnd1 j, if_neg (by omega),
          if_neg this]
  · -- spare capacity
    have hne : v.size ≠ v.data.length := by omega
    have hslot : v.data[v.size]? = some none := by
      rw [hdata, hsize]
      exact bufAt_dead l k (by omega) (by omega)
    set out := v.data.set v.size (some x) with houtdef
    have hcons : constructAt v.data v.size x = some out :=
      constructAt_eq_some.mpr ⟨hslot, rfl⟩
    refine ⟨⟨out, v.size + 1⟩, ?_, ?_⟩
    · unfold SimpleVector.PushBack
      rw [if_pos hne, hcons, Option.map_some']
    · refine ⟨k - 1, ?_, by simp [hsize]⟩
      have hvlt : v.size < v.data.length := by omega
      have houtAt : ∀ j, out[j]? =
          if j = v.size then some (some x) else v.data[j]? := by
        intro j
        by_cases hj : j = v.size
        · subst hj
          rw [if_pos rfl, houtdef]
          exact List.getElem?_set_self hvlt
        · rw [if_neg hj, houtdef, List.getElem?_set_ne (by omega)]
      have harith : (l ++ [x]).length = v.size + 1 := by simp [hsize]
      apply eq_wfBuf_of_pointwise
      · intro j hj
        rw [harith] at hj
        rw [houtAt j]
        by_cases hjs : j < v.size
        · rw [if_neg (by omega), hdata, bufAt_lt l k (by omega)]
          rw [List.getElem?_append, if_pos (show j < l.length by omega)]
        · have hje : j = v.size := by omega
          rw [if_pos hje, hje, hsize, List.getElem?_concat_length]
          rfl
      · intro j hj1 hj2
        rw [harith] at hj1
        rw [harith] at hj2
        rw [houtAt j, if_neg (by omega), hdata]
        exact bufAt_dead l k (by omega) (by omega)
      · intro j hj
        rw [harith] at hj
        rw [houtAt j, if_neg (by omega), hdata]
        exact bufAt_none l k (by omega)

/-! ### Lookup helpers for insertion and deletion -/

theorem setAt {T : Type} {buf : List (Option T)} {i : Nat} (y : Option T)
    (hi : i < buf.length) (j : Nat) :
    (buf.set i y)[j]? = if j = i then some y else buf[j]? := by
  by_cases hj : j = i
  · subst hj
    rw [if_pos rfl]
    exact List.getElem?_set_self hi
  · rw [if_neg hj, List.getElem?_set_ne (by omega)]

theorem insAt {T : Type} (l : List T) (x : T) (pos : Nat)
    (hpos : pos ≤ l.length) (j : Nat) :
    (l.take pos ++ x :: l.drop pos)[j]? =
      if j < pos then l[j]? else if j = pos then some x else l[j - 1]? := by
  have htl : (l.take pos).length = pos := by
    rw [List.length_take]
    omega
  rw [List.getElem?_append, htl]
  by_cases h1 : j < pos
  · rw [if_pos h1, if_pos h1, List.getElem?_take, if_pos h1]
  · rw [if_neg h1, if_neg h1]
    by_cases h2 : j = pos
    · subst h2
      rw [if_pos rfl, Nat.sub_self, List.getElem?_cons_zero]
    · rw [if_neg h2]
      have h3 : j - pos = (j - pos - 1) + 1 := by omega
      rw [h3, List.getElem?_cons_succ, List.getElem?_drop]
      congr 1
      omega

theorem delAt {T : Type} (l : List T) (pos : Nat) (hpos : pos < l.length)
    (j : Nat) :
    (l.take pos ++ l.drop (pos + 1))[j]? =
      if j < pos then l[j]? else l[j + 1]? := by
  have htl : (l.take pos).length = pos := by
    rw [List.length_take]
    omega
  rw [List.getElem?_append, htl]
  by_cases h1 : j < pos
  · rw [if_pos h1, if_pos h1, List.getElem?_take, if_pos h1]
  · rw [if_neg h1, if_neg h1, List.getElem?_drop]
    congr 1
    omega

/-- `Emplace` on a well-formed vector at a valid position succeeds and
inserts the value at that position. -/
theorem emplace_WF {T : Type} {v : SimpleVector T} {l : List T} {pos : Nat}
    (x : T) (h : WF v l) (hpos : pos ≤ l.length) :
    ∃ v1, SimpleVector.Emplace v pos x = some v1 ∧
      WF v1 (l.take pos ++ x :: l.drop pos) := by
  obtain ⟨k, hdata, hsize⟩ := h
  have hlen : v.data.length = l.length + k := by rw [hdata]; simp
  have hins : (l.take pos ++ x :: l.drop pos).length = l.length + 1 := by
    rw [List.length_append, List.length_take, List.length_cons,
      List.length_drop]
    omega
  rcases Nat.eq_zero_or_pos k with hk | hk
  · -- buffer full: reallocating path
    subst hk
    have hnotlt : ¬ v.size < v.data.length := by omega
    set cap := if v.size = 0 then 1 else v.size * 2 with hcapdef
    have hcap : v.size < cap := by
      rcases Nat.eq_zero_or_pos v.size with h0 | h0
      · rw [hcapdef, if_pos h0]; omega
      · rw [hcapdef, if_neg (by omega)]; omega
    have hposcap : pos < cap := by omega
    have hconsEl : (List.replicate cap (none : Option T))[pos]? =
        some none := by
      rw [List.getElem?_replicate, if_pos hposcap]
    set nd1 := (List.replicate cap (none : Option T)).set pos (some x)
      with hnd1def
    have hcons : constructAt (List.replicate cap none) pos x = some nd1 :=
      constructAt_eq_some.mpr ⟨hconsEl, rfl⟩
    have hnd1len : nd1.length = cap := by
      rw [hnd1def, List.length_set, List.length_replicate]
    have hnd1 : ∀ j, nd1[j]? =
        if j = pos then some (some x)
        else if j < cap then some none else none := by
      intro j
      rw [hnd1def, setAt (some x) (by simpa using hposcap) j,
        List.getElem?_replicate]
    obtain ⟨nd2, hrel1, hrel1len, hrel1At⟩ :=
      relocateN_spec pos v.data nd1 0 0
        (by
          intro i hi
          rw [Nat.zero_add]
          exact hdata ▸ bufAt_live (by omega))
        (by
          intro i hi
          rw [Nat.zero_add, hnd1 i, if_neg (by omega), if_pos (by omega)])
    have hnd2At : ∀ j, nd2[j]? =
        if j < pos then v.data[j]? else nd1[j]? := by
      intro j
      rw [hrel1At j]
      by_cases hj : j < pos
      · rw [if_pos (by omega : 0 ≤ j ∧ j < 0 + pos), if_pos hj,
          Nat.zero_add, Nat.sub_zero]
      · rw [if_neg (by omega), if_neg hj]
    obtain ⟨nd3, hrel2, hrel2len, hrel2At⟩ :=
      relocateN_spec (v.size - pos) v.data nd2 pos (pos + 1)
        (by
          intro i hi
          exact hdata ▸ bufAt_live (by omega))
        (by
          intro i hi
          rw [hnd2At (pos + 1 + i), if_neg (by omega), hnd1 (pos + 1 + i),
            if_neg (by omega), if_pos (by omega)])
    obtain ⟨dd, hdes, _, _⟩ :=
      destroyN_spec v.size v.data 0
        (by
          intro i hi
          rw [Nat.zero_add]
          exact hdata ▸ bufAt_live (by omega))
    refine ⟨⟨nd3, v.size + 1⟩, ?_, ?_⟩
    · unfold SimpleVector.Emplace
      rw [if_neg hnotlt, ← hcapdef, hcons, Option.some_bind, hrel1,
        Option.some_bind, hrel2, Option.some_bind, hdes, Option.map_some']
    · refine ⟨cap - (v.size + 1), ?_,
        by show v.size + 1 = _; rw [hins]; omega⟩
      apply eq_wfBuf_of_pointwise
      · intro j hj
        rw [hins] at hj
        rw [insAt l x pos hpos j, hrel2At j]
        by_cases h1 : j < pos
        · rw [if_neg (by omega), hnd2At j, if_pos h1, if_pos h1, hdata,
            bufAt_lt l 0 (by omega)]
        · by_cases h2 : j = pos
          · rw [if_neg (by omega), hnd2At j, if_neg (by omega), hnd1 j,
              if_pos h2, if_neg h1, if_pos h2]
            rfl
          · have hrange : pos + 1 ≤ j ∧ j < pos + 1 + (v.size - pos) := by
              omega
            have hidx : pos + (j - (pos + 1)) = j - 1 := by omega
            rw [if_pos hrange, hidx, if_neg h1, if_neg h2, hdata,
              bufAt_lt l 0 (by omega)]
      · intro j hj1 hj2
        rw [hins] at hj1
        rw [hins] at hj2
        rw [hrel2At j, if_neg (by omega), hnd2At j, if_neg (by omega),
          hnd1 j, if_neg (by omega), if_pos (by omega)]
      · intro j hj
        rw [hins] at hj
        rw [hrel2At j, if_neg (by omega), hnd2At j, if_neg (by omega),
          hnd1 j, if_neg (by omega), if_neg (by omega)]
  · -- spare capacity
    have hlt : v.size < v.data.length := by omega
    by_cases hposlt : pos < v.size
    · -- shifting path
      obtain ⟨w, hw⟩ := @bufAt_live T l k (v.size - 1) (by omega)
      rw [← hdata] at hw
      have hwl : l[v.size - 1]? = some w := by
        have := hdata ▸ hw
        rw [bufAt_lt l k (by omega)] at this
        rcases hl : l[v.size - 1]? with _ | u
        · rw [hl] at this; cases this
        · rw [hl] at this
          simp only [Option.map_some'] at this
          cases this
          rfl
      have hread : readSlot v.data (v.size - 1) = some w :=
        readSlot_eq_some.mpr hw
      have hslot : v.data[v.size]? = some none := by
        rw [hdata, hsize]
        exact bufAt_dead l k (by omega) (by omega)
      set d1 := v.data.set v.size (some w) with hd1def
      have hcons : constructAt v.data v.size w = some d1 :=
        constructAt_eq_some.mpr ⟨hslot, rfl⟩
      have hd1At : ∀ j, d1[j]? =
          if j = v.size then some (some w) else v.data[j]? := by
        intro j
        rw [hd1def]
        exact setAt (some w) hlt j
      have hd1len : d1.length = v.data.length := by
        rw [hd1def, List.length_set]
      obtain ⟨d2, hmb, hd2len, hd2At⟩ :=
        moveBackwardN_spec (v.size - 1 - pos) d1 pos
          (by
            intro i hi
            rw [hd1At (pos + i), if_neg (by omega), hdata]
            exact bufAt_live (by omega))
      obtain ⟨w2, hw2⟩ := @bufAt_live T l k pos (by omega)
      rw [← hdata] at hw2
      have hd2pos : d2[pos]? = some (some w2) := by
        rw [hd2At pos, if_neg (by omega), hd1At pos, if_neg (by omega)]
        exact hw2
      set d3 := d2.set pos (some x) with hd3def
      have hassign : assignSlot d2 pos x = some d3 :=
        assignSlot_eq_some.mpr ⟨⟨w2, hd2pos⟩, rfl⟩
      have hd3At : ∀ j, d3[j]? =
          if j = pos then some (some x) else d2[j]? := by
        intro j
        rw [hd3def]
        refine setAt (some x) ?_ j
        rw [hd2len, hd1len]
        omega
      refine ⟨⟨d3, v.size + 1⟩, ?_, ?_⟩
      · unfold SimpleVector.Emplace
        rw [if_pos hlt, if_pos hposlt, hread, Option.some_bind, hcons,
          Option.some_bind, hmb, Option.some_bind, hassign, Option.map_some']
      · refine ⟨k - 1, ?_, by show v.size + 1 = _; rw [hins]; omega⟩
        apply eq_wfBuf_of_pointwise
        · intro j hj
          rw [hins] at hj
          rw [insAt l x pos hpos j, hd3At j]
          by_cases h1 : j < pos
          · rw [if_neg (by omega), hd2At j, if_neg (by omega), hd1At j,
              if_neg (by omega), if_pos h1, hdata, bufAt_lt l k (by omega)]
          · by_cases h2 : j = pos
            · rw [if_pos h2, if_neg h1, if_pos h2]
              rfl
            · by_cases h3 : j ≤ v.size - 1
              · rw [if_neg h2, hd2At j, if_pos (by omega), hd1At (j - 1),
                  if_neg (by omega), if_neg h1, if_neg h2, hdata,
                  bufAt_lt l k (by omega)]
              · have hje : j = v.size := by omega
                rw [if_neg h2, hd2At j, if_neg (by omega), hd1At j,
                  if_pos hje, if_neg h1, if_neg h2]
                have : j - 1 = v.size - 1 := by omega
                rw [this, hwl]
                rfl
        · intro j hj1 hj2
          rw [hins] at hj1
          rw [hins] at hj2
          rw [hd3At j, if_neg (by omega), hd2At j, if_neg (by omega),
            hd1At j, if_neg (by omega), hdata]
          exact bufAt_dead l k (by omega) (by omega)
        · intro j hj
          rw [hins] at hj
          rw [hd3At j, if_neg (by omega), hd2At j, if_neg (by omega),
            hd1At j, if_neg (by omega), hdata]
          exact bufAt_none l k (by omega)
    · -- pos = size: construct at the end
      have hpe : pos = v.size := by omega
      have hslot : v.data[pos]? = some none := by
        rw [hdata, hpe, hsize]
        exact bufAt_dead l k (by omega) (by omega)
      set d1 := v.data.set pos (some x) with hd1def
      have hcons : constructAt v.data pos x = some d1 :=
        constructAt_eq_some.mpr ⟨hslot, rfl⟩
      have hd1At : ∀ j, d1[j]? =
          if j = pos then some (some x) else v.data[j]? := by
        intro j
        rw [hd1def]
        exact setAt (some x) (by omega) j
      refine ⟨⟨d1, v.size + 1⟩, ?_, ?_⟩
      · unfold SimpleVector.Emplace
        rw [if_pos hlt, if_neg hposlt, hcons, Option.map_some']
      · refine ⟨k - 1, ?_, by show v.size + 1 = _; rw [hins]; omega⟩
        apply eq_wfBuf_of_pointwise
        · intro j hj
          rw [hins] at hj
          rw [insAt l x pos hpos j, hd1At j]
          by_cases h1 : j < pos
          · rw [if_neg (by omega), if_pos h1, hdata,
              bufAt_lt l k (by omega)]
          · have h2 : j = pos := by omega
            rw [if_pos h2, if_neg h1, if_pos h2]
            rfl
        · intro j hj1 hj2
          rw [hins] at hj1
          rw [hins] at hj2
          rw [hd1At j, if_neg (by omega), hdata]
          exact bufAt_dead l k (by omega) (by omega)
        · intro j hj
          rw [hins] at hj
          rw [hd1At j, if_neg (by omega), hdata]
          exact bufAt_none l k (by omega)

/-- `Erase` on a well-formed vector at a valid position succeeds and
removes the element at that position. -/
theorem erase_WF {T : Type} {v : SimpleVector T} {l : List T} {pos : Nat}
    (h : WF v l) (hpos : pos < l.length) :
    ∃ v2, SimpleVector.Erase v pos = some v2 ∧
      WF v2 (l.take pos ++ l.drop (pos + 1)) := by
  obtain ⟨k, hdata, hsize⟩ := h
  have hlen : v.data.length = l.length + k := by rw [hdata]; simp
  have hdel : (l.take pos ++ l.drop (pos + 1)).length = l.length - 1 := by
    rw [List.length_append, List.length_take, List.length_drop]
    omega
  obtain ⟨d1, hmf, hd1len, hd1At⟩ :=
    moveForwardN_spec (v.size - pos - 1) v.data pos
      (by
        intro i hi
        rw [hdata]
        exact bufAt_live (by omega))
  obtain ⟨w, hw⟩ := @bufAt_live T l k (v.size - 1) (by omega)
  rw [← hdata] at hw
  have hd1last : d1[v.size - 1]? = some (some w) := by
    rw [hd1At (v.size - 1), if_neg (by omega)]
    exact hw
  set d2 := d1.set (v.size - 1) none with hd2def
  have hdes : destroySlot d1 (v.size - 1) = some d2 :=
    destroySlot_eq_some.mpr ⟨⟨w, hd1last⟩, rfl⟩
  have hd2At : ∀ j, d2[j]? =
      if j = v.size - 1 then some none else d1[j]? := by
    intro j
    rw [hd2def]
    refine setAt none ?_ j
    rw [hd1len]
    omega
  refine ⟨⟨d2, v.size - 1⟩, ?_, ?_⟩
  · unfold SimpleVector.Erase
    rw [hmf, Option.some_bind, hdes, Option.map_some']
  · refine ⟨k + 1, ?_, by show v.size - 1 = _; rw [hdel]; omega⟩
    apply eq_wfBuf_of_pointwise
    · intro j hj
      rw [hdel] at hj
      rw [delAt l pos hpos j, hd2At j, if_neg (by omega), hd1At j]
      by_cases h1 : j < pos
      · rw [if_neg (by omega), if_pos h1, hdata, bufAt_lt l k (by omega)]
      · rw [if_pos (by omega), if_neg h1, hdata, bufAt_lt l k (by omega)]
    · intro j hj1 hj2
      rw [hdel] at hj1
      rw [hdel] at hj2
      rw [hd2At j]
      by_cases h1 : j = v.size - 1
      · rw [if_pos h1]
      · rw [if_neg h1, hd1At j, if_neg (by omega), hdata]
        exact bufAt_dead l k (by omega) (by omega)
    · intro j hj
      rw [hdel] at hj
      rw [hd2At j, if_neg (by omega), hd1At j, if_neg (by omega), hdata]
      exact bufAt_none l k (by omega)

/-- Repeated `PushBack` on a well-formed vector succeeds and appends the
values in call order. -/
theorem pushAll_WF {T : Type} :
    ∀ (vals : List T) (v : SimpleVector T) (l : List T), WF v l →
      ∃ v1, SimpleVector.pushAll v vals = some v1 ∧ WF v1 (l ++ vals) := by
  intro vals
  induction vals with
  | nil =>
    intro v l h
    exact ⟨v, rfl, by rw [List.append_nil]; exact h⟩
  | cons x xs ih =>
    intro v l h
    obtain ⟨v1, hpush, hwf1⟩ := pushBack_WF x h
    obtain ⟨v2, hall, hwf2⟩ := ih v1 (l ++ [x]) hwf1
    refine ⟨v2, ?_, ?_⟩
    · unfold SimpleVector.pushAll
      rw [hpush, Option.some_bind, hall]
    · have : (l ++ [x]) ++ xs = l ++ x :: xs := by simp
      rw [← this]
      exact hwf2

/-! ### Size/capacity bounds for every operation -/

theorem mkSized_bound {T : Type} {n : Nat} {d : T} {v : SimpleVector T}
    (h : SimpleVector.mkSized n d = some v) : v.size ≤ v.data.length := by
  unfold SimpleVector.mkSized at h
  rcases h1 : constructN (List.replicate n (none : Option T)) 0 n d
    with _ | b <;> rw [h1] at h
  · cases h
  · rw [Option.map_some'] at h
    cases h
    show n ≤ b.length
    rw [constructN_length n (List.replicate n none) b 0 d h1,
      List.length_replicate]

theorem copyCtor_bound {T : Type} {u v : SimpleVector T}
    (h : SimpleVector.copyCtor u = some v) : v.size ≤ v.data.length := by
  unfold SimpleVector.copyCtor at h
  rcases h1 : relocateN u.data (List.replicate u.size (none : Option T))
      0 0 u.size with _ | nd <;> rw [h1] at h
  · cases h
  · rw [Option.map_some'] at h
    cases h
    show u.size ≤ nd.length
    rw [relocateN_length u.size u.data (List.replicate u.size none) nd 0 0 h1,
      List.length_replicate]

theorem copyAssignReuse_bound {T : Type} {u r v : SimpleVector T}
    (hr : r.size ≤ u.data.length)
    (h : SimpleVector.copyAssignReuse u r = some v) :
    v.size ≤ v.data.length := by
  unfold SimpleVector.copyAssignReuse at h
  by_cases hc : r.size < u.size
  · rw [if_pos hc] at h
    rcases h1 : destroyN u.data 0 (u.size - r.size) with _ | d1 <;>
      rw [h1] at h
    · cases h
    · rw [Option.some_bind] at h
      rcases h2 : assignN d1 r.data 0 r.size with _ | d2 <;> rw [h2] at h
      · cases h
      · rw [Option.map_some'] at h
        cases h
        show r.size ≤ d2.length
        rw [assignN_length r.size d1 r.data d2 0 h2,
          destroyN_length (u.size - r.size) u.data d1 0 h1]
        exact hr
  · rw [if_neg hc] at h
    rcases h1 : assignN u.data r.data 0 u.size with _ | d1 <;> rw [h1] at h
    · cases h
    · rw [Option.some_bind] at h
      rcases h2 : relocateN r.data d1 0 0 (r.size - u.size) with _ | d2 <;>
        rw [h2] at h
      · cases h
      · rw [Option.map_some'] at h
        cases h
        show r.size ≤ d2.length
        rw [relocateN_length (r.size - u.size) r.data d1 d2 0 0 h2,
          assignN_length u.size u.data r.data d1 0 h1]
        exact hr

theorem copyAssign_bound {T : Type} {u r v : SimpleVector T}
    (h : SimpleVector.copyAssign u r = some v) :
    v.size ≤ v.data.length := by
  unfold SimpleVector.copyAssign at h
  by_cases hc : u.data.length < r.size
  · rw [if_pos hc] at h
    exact copyCtor_bound h
  · rw [if_neg hc] at h
    exact copyAssignReuse_bound (by omega) h

theorem Reserve_bound {T : Type} {u v : SimpleVector T} {m : Nat}
    (hu : u.size ≤ u.data.length)
    (h : SimpleVector.Reserve u m = some v) :
    v.size = u.size ∧ u.size ≤ v.data.length ∧ m ≤ v.data.length := by
  unfold SimpleVector.Reserve at h
  by_cases hc : m ≤ u.data.length
  · rw [if_pos hc] at h
    cases h
    exact ⟨rfl, hu, hc⟩
  · rw [if_neg hc] at h
    rcases h1 : relocateN u.data (List.replicate m (none : Option T))
        0 0 u.size with _ | nd <;> rw [h1] at h
    · cases h
    · rw [Option.some_bind] at h
      rcases h2 : destroyN u.data 0 u.size with _ | dd <;> rw [h2] at h
      · cases h
      · rw [Option.map_some'] at h
        cases h
        have hnd : nd.length = m := by
          rw [relocateN_length u.size u.data (List.replicate m none) nd
            0 0 h1, List.length_replicate]
        exact ⟨rfl, by show u.size ≤ nd.length; omega,
          by show m ≤ nd.length; omega⟩

theorem Resize_bound {T : Type} {u v : SimpleVector T} {d : T} {m : Nat}
    (hu : u.size ≤ u.data.length)
    (h : SimpleVector.Resize u d m = some v) :
    v.size ≤ v.data.length := by
  unfold SimpleVector.Resize at h
  by_cases hc1 : m < u.size
  · rw [if_pos hc1] at h
    rcases h1 : destroyN u.data 0 (u.size - m) with _ | b <;> rw [h1] at h
    · cases h
    · rw [Option.map_some'] at h
      cases h
      show m ≤ b.length
      rw [destroyN_length (u.size - m) u.data b 0 h1]
      omega
  · rw [if_neg hc1] at h
    by_cases hc2 : u.size < m
    · rw [if_pos hc2] at h
      rcases h1 : SimpleVector.Reserve u m with _ | v1 <;> rw [h1] at h
      · cases h
      · rw [Option.some_bind] at h
        rcases h2 : constructN v1.data 0 (m - u.size) d with _ | b <;>
          rw [h2] at h
        · cases h
        · rw [Option.map_some'] at h
          cases h
          obtain ⟨_, _, hm⟩ := Reserve_bound hu h1
          show m ≤ b.length
          rw [constructN_length (m - u.size) v1.data b 0 d h2]
          exact hm
    · rw [if_neg hc2] at h
      cases h
      exact hu

theorem pushBack_bound {T : Type} {u v : SimpleVector T} {x : T}
    (h : SimpleVector.PushBack u x = some v) : v.size ≤ v.data.length := by
  unfold SimpleVector.PushBack at h
  by_cases hc : u.size ≠ u.data.length
  · rw [if_pos hc] at h
    rcases h1 : constructAt u.data u.size x with _ | b <;> rw [h1] at h
    · cases h
    · rw [Option.map_some'] at h
      cases h
      obtain ⟨hslot, hb⟩ := constructAt_eq_some.mp h1
      have hidx : u.size < u.data.length :=
        (List.getElem?_eq_some_iff.mp hslot).1
      show u.size + 1 ≤ b.length
      rw [hb, List.length_set]
      omega
  · rw [if_neg hc] at h
    rcases h1 : constructAt
        (List.replicate (if u.size = 0 then 1 else u.size * 2)
          (none : Option T)) u.size x with _ | nd1 <;> rw [h1] at h
    · cases h
    · rw [Option.some_bind] at h
      rcases h2 : relocateN u.data nd1 0 0 u.size with _ | nd2 <;>
        rw [h2] at h
      · cases h
      · rw [Option.some_bind] at h
        rcases h3 : destroyN u.data 0 u.size with _ | dd <;> rw [h3] at h
        · cases h
        · rw [Option.map_some'] at h
          cases h
          obtain ⟨hslot, hnd1⟩ := constructAt_eq_some.mp h1
          have hidx := (List.getElem?_eq_some_iff.mp hslot).1
          rw [List.length_replicate] at hidx
          show u.size + 1 ≤ nd2.length
          rw [relocateN_length u.size u.data nd1 nd2 0 0 h2, hnd1,
            List.length_set, List.length_replicate]
          omega

theorem emplaceBack_bound {T : Type} {u v : SimpleVector T} {mk : Option T}
    (h : SimpleVector.EmplaceBack u mk = .ok v) : v.size ≤ v.data.length := by
  unfold SimpleVector.EmplaceBack at h
  split at h
  · -- spare capacity
    split at h
    · cases h
    · split at h
      · cases h
      · rename_i b h1
        cases h
        obtain ⟨hslot, hb⟩ := constructAt_eq_some.mp h1
        have hidx : u.size < u.data.length :=
          (List.getElem?_eq_some_iff.mp hslot).1
        show u.size + 1 ≤ b.length
        rw [hb, List.length_set]
        omega
  · split at h
    · cases h
    · split at h
      · cases h
      · rename_i nd1 h1
        split at h
        · cases h
        · rename_i nd2 h2
          split at h
          · cases h
          · cases h
            obtain ⟨hslot, hnd1⟩ := constructAt_eq_some.mp h1
            have hidx := (List.getElem?_eq_some_iff.mp hslot).1
            rw [List.length_replicate] at hidx
            show u.size + 1 ≤ nd2.length
            rw [relocateN_length u.size u.data nd1 nd2 0 0 h2, hnd1,
              List.length_set, List.length_replicate]
            omega

theorem emplace_bound {T : Type} {u v : SimpleVector T} {pos : Nat} {x : T}
    (h : SimpleVector.Emplace u pos x = some v) :
    v.size ≤ v.data.length := by
  unfold SimpleVector.Emplace at h
  by_cases hc : u.size < u.data.length
  · rw [if_pos hc] at h
    by_cases hp : pos < u.size
    · rw [if_pos hp] at h
      rcases h0 : readSlot u.data (u.size - 1) with _ | w <;> rw [h0] at h
      · cases h
      · rw [Option.some_bind] at h
        rcases h1 : constructAt u.data u.size w with _ | d1 <;> rw [h1] at h
        · cases h
        · rw [Option.some_bind] at h
          rcases h2 : moveBackwardN d1 pos (u.size - 1 - pos) with _ | d2 <;>
            rw [h2] at h
          · cases h
          · rw [Option.some_bind] at h
            rcases h3 : assignSlot d2 pos x with _ | d3 <;> rw [h3] at h
            · cases h
            · rw [Option.map_some'] at h
              cases h
              obtain ⟨_, hd3⟩ := assignSlot_eq_some.mp h3
              obtain ⟨_, hd1⟩ := constructAt_eq_some.mp h1
              show u.size + 1 ≤ d3.length
              rw [hd3, List.length_set,
                moveBackwardN_length (u.size - 1 - pos) d1 d2 pos h2, hd1,
                List.length_set]
              omega
    · rw [if_neg hp] at h
      rcases h1 : constructAt u.data pos x with _ | d1 <;> rw [h1] at h
      · cases h
      · rw [Option.map_some'] at h
        cases h
        obtain ⟨_, hd1⟩ := constructAt_eq_some.mp h1
        show u.size + 1 ≤ d1.length
        rw [hd1, List.length_set]
        omega
  · rw [if_neg hc] at h
    rcases h1 : constructAt
        (List.replicate (if u.size = 0 then 1 else u.size * 2)
          (none : Option T)) pos x with _ | nd1 <;> rw [h1] at h
    · cases h
    · rw [Option.some_bind] at h
      rcases h2 : relocateN u.data nd1 0 0 pos with _ | nd2 <;> rw [h2] at h
      · cases h
      · rw [Option.some_bind] at h
        rcases h3 : relocateN u.data nd2 pos (pos + 1) (u.size - pos)
          with _ | nd3 <;> rw [h3] at h
        · cases h
        · rw [Option.some_bind] at h
          rcases h4 : destroyN u.data 0 u.size with _ | dd <;> rw [h4] at h
          · cases h
          · rw [Option.map_some'] at h
            cases h
            obtain ⟨_, hnd1⟩ := constructAt_eq_some.mp h1
            show u.size + 1 ≤ nd3.length
            rw [relocateN_length (u.size - pos) u.data nd2 nd3 pos
              (pos + 1) h3,
              relocateN_length pos u.data nd1 nd2 0 0 h2, hnd1,
              List.length_set, List.length_replicate]
            rcases Nat.eq_zero_or_pos u.size with h0 | h0
            · rw [if_pos h0]; omega
            · rw [if_neg (by omega)]; omega

theorem popBack_bound {T : Type} {u v : SimpleVector T}
    (hu : u.size ≤ u.data.length)
    (h : SimpleVector.PopBack u = some v) : v.size ≤ v.data.length := by
  unfold SimpleVector.PopBack at h
  rcases h1 : destroySlot u.data 0 with _ | b <;> rw [h1] at h
  · cases h
  · rw [Option.map_some'] at h
    cases h
    obtain ⟨_, hb⟩ := destroySlot_eq_some.mp h1
    show u.size - 1 ≤ b.length
    rw [hb, List.length_set]
    omega

theorem erase_bound {T : Type} {u v : SimpleVector T} {pos : Nat}
    (hu : u.size ≤ u.data.length)
    (h : SimpleVector.Erase u pos = some v) : v.size ≤ v.data.length := by
  unfold SimpleVector.Erase at h
  rcases h1 : moveForwardN u.data pos (u.size - pos - 1) with _ | b <;>
    rw [h1] at h
  · cases h
  · rw [Option.some_bind] at h
    rcases h2 : destroySlot b (u.size - 1) with _ | b1 <;> rw [h2] at h
    · cases h
    · rw [Option.map_some'] at h
      cases h
      obtain ⟨_, hb1⟩ := destroySlot_eq_some.mp h2
      show u.size - 1 ≤ b1.length
      rw [hb1, List.length_set,
        moveForwardN_length (u.size - pos - 1) u.data b pos h1]
      omega

/-- Vector states reachable by the container's own operations: the four
constructors, copy/move assignment, `Reserve`, `Resize`,
`PushBack`/`EmplaceBack`, `Emplace` at a position in `[0, size]`,
`PopBack` on a non-empty vector, and `Erase` at a position in
`[0, size)`.  A premise `op = some v` restricts attention to executions of
the operation that do not run into undefined behavior. -/
inductive Reachable {T : Type} : SimpleVector T → Prop where
  | emptyCtor : Reachable (SimpleVector.empty T)
  | sizedCtor {n : Nat} {d : T} {v : SimpleVector T} :
      SimpleVector.mkSized n d = some v → Reachable v
  | copyCtorStep {u v : SimpleVector T} : Reachable u →
      SimpleVector.copyCtor u = some v → Reachable v
  | moveCtorDst {u : SimpleVector T} : Reachable u →
      Reachable (SimpleVector.moveCtor u).1
  | moveCtorSrc {u : SimpleVector T} : Reachable u →
      Reachable (SimpleVector.moveCtor u).2
  | copyAssignStep {u r v : SimpleVector T} : Reachable u → Reachable r →
      SimpleVector.copyAssign u r = some v → Reachable v
  | moveAssignDst {u r : SimpleVector T} : Reachable u → Reachable r →
      Reachable (SimpleVector.moveAssignOp u r false).1
  | moveAssignSrc {u r : SimpleVector T} : Reachable u → Reachable r →
      Reachable (SimpleVector.moveAssignOp u r false).2
  | reserveStep {u v : SimpleVector T} {m : Nat} : Reachable u →
      SimpleVector.Reserve u m = some v → Reachable v
  | resizeStep {u v : SimpleVector T} {d : T} {m : Nat} : Reachable u →
      SimpleVector.Resize u d m = some v → Reachable v
  | pushBackStep {u v : SimpleVector T} {x : T} : Reachable u →
      SimpleVector.PushBack u x = some v → Reachable v
  | emplaceBackStep {u v : SimpleVector T} {mk : Option T} : Reachable u →
      SimpleVector.EmplaceBack u mk = .ok v → Reachable v
  | emplaceStep {u v : SimpleVector T} {pos : Nat} {x : T} : Reachable u →
      pos ≤ u.size → SimpleVector.Emplace u pos x = some v → Reachable v
  | popBackStep {u v : SimpleVector T} : Reachable u → 0 < u.size →
      SimpleVector.PopBack u = some v → Reachable v
  | eraseStep {u v : SimpleVector T} {pos : Nat} : Reachable u →
      pos < u.size → SimpleVector.Erase u pos = some v → Reachable v

/-! ### Claims -/

/-- Claim C1 (the code contradicts it): moving a `RawMemory` is supposed to
transfer the block pointer and capacity and null the source, with no
per-element work.  The implementation instead copies only the capacity and
calls `std::uninitialized_move_n` from the source's block into the
destination's pointer — which is null (move construction) or a stale,
too-small block (move assignment) — and never clears the source.  On any
source of capacity 1 both operations are undefined behavior. -/
theorem rawMemory_move_no_ownership_transfer :
    RawMemory.moveConstruct (⟨some [some (5 : Nat)], 1⟩ : RawMemory Nat) =
      none ∧
    RawMemory.moveAssign (⟨none, 0⟩ : RawMemory Nat)
      ⟨some [some (5 : Nat)], 1⟩ = none :=
  ⟨rfl, rfl⟩

/-- Claim C2 (the code contradicts it): the storage-reusing copy-assignment
is supposed to assign over the common front part, destroy only the trailing
excess `[rhs.size, lhs.size)` when shrinking, and copy-construct only the
new tail `[lhs.size, rhs.size)` when growing.  The implementation destroys
`size - rhs.size` elements starting at slot 0 and then assigns into the
now-dead slots (shrinking), and copy-constructs `rhs.size - size` elements
at slot 0 over live elements (growing from a non-zero size): both are
undefined behavior instead of the claimed result. -/
theorem copyAssign_reuse_wrong_addresses :
    SimpleVector.copyAssign (⟨[some 10, some 20], 2⟩ : SimpleVector Nat)
      ⟨[some 7], 1⟩ = none ∧
    SimpleVector.copyAssign (⟨[some 1, none], 1⟩ : SimpleVector Nat)
      ⟨[some 7, some 8], 2⟩ = none :=
  ⟨rfl, rfl⟩

/-- Claim C3 (the code contradicts it): `Resize` is supposed to destroy the
trailing elements `[n, size)` when shrinking and default-construct the new
trailing slots `[size, n)` when growing, so `[42]` resized to 3 becomes
`[42, 0, 0]`.  The implementation destroys and value-constructs starting at
slot 0 instead: growing `[42]` to 3 value-constructs over the live element
42 (undefined behavior, not `[42, 0, 0]`), and shrinking `[1, 2]` to 1
destroys the element at slot 0 and leaks the one at slot 1 instead of
keeping `[1]`. -/
theorem resize_wrong_addresses :
    SimpleVector.Resize (⟨[some 42], 1⟩ : SimpleVector Nat) 0 3 = none ∧
    SimpleVector.Resize (⟨[some 1, some 2], 2⟩ : SimpleVector Nat) 0 1 =
      some ⟨[none, some 2], 1⟩ :=
  ⟨rfl, rfl⟩

/-- Claim C4 (the code contradicts it): `PopBack` is supposed to destroy
the element at index `size - 1`.  The implementation calls
`std::destroy_at(data_.GetAddress())`, destroying the element at index 0:
on `[1, 2]` it leaves slot 0 dead and the element 2 leaked beyond the new
size, instead of the claimed `[1]`. -/
theorem popBack_destroys_front_element :
    SimpleVector.PopBack (⟨[some 1, some 2], 2⟩ : SimpleVector Nat) =
      some ⟨[none, some 2], 1⟩ :=
  rfl

/-- Claim C5 (the code contradicts it): when relocating the tail
`[pos, size)` into the new buffer throws after the front `[0, pos)` was
already relocated, every element constructed in the new buffer — including
the new element at offset `pos` — is supposed to be destroyed before the
exception propagates.  The catch block only runs
`std::destroy_n(new_data.GetAddress(), dist_to_pos)`, forgetting the new
element at offset `pos`: inserting 7 at position 0 of the full vector
`[99, 5]` with a copy constructor that throws on 99 leaves `some 7` alive
at offset 0 of the abandoned new buffer (a leak).  The old vector does
remain intact. -/
theorem emplaceRealloc_suffix_throw_leaks_new_element :
    emplaceRealloc (fun y => if y = 99 then none else some y)
      (⟨[some 99, some 5], 2⟩ : SimpleVector Nat) 0 7 =
      .failed [some 7, none, none, none] ⟨[some 99, some 5], 2⟩ :=
  rfl

/-- Claim C6, counterexample to the claim as stated: starting from the
non-empty vector `[7]`, one successful `PushBack` yields size 2, not
size `n = 1`. -/
theorem pushBack_from_nonempty_counterexample :
    (SimpleVector.PushBack (⟨[some 7], 1⟩ : SimpleVector Nat) 5).map
      SimpleVector.size = some 2 ∧ (2 : Nat) ≠ 1 :=
  ⟨rfl, by decide⟩

/-- Claim C6, amended: for every sequence of `PushBack` calls starting from
the default-constructed (empty) vector, after `n` successful calls the
vector has `size = n`, `capacity ≥ n`, and its elements equal the pushed
values in call order. -/
theorem pushAll_from_empty_spec {T : Type} (vals : List T) :
    ∃ v1, SimpleVector.pushAll (SimpleVector.empty T) vals = some v1 ∧
      v1.size = vals.length ∧ vals.length ≤ v1.data.length ∧
      v1.data.take v1.size = vals.map some := by
  obtain ⟨v1, hall, hwf⟩ :=
    pushAll_WF vals (SimpleVector.empty T) [] ⟨0, rfl, rfl⟩
  rw [List.nil_append] at hwf
  obtain ⟨k, hdata, hsize⟩ := hwf
  refine ⟨v1, hall, hsize, ?_, ?_⟩
  · rw [hdata, List.length_append, List.length_map]
    omega
  · rw [hdata, hsize, List.take_left' (by rw [List.length_map])]

/-- Claim C7: in the reallocating append path the new element is
constructed into the new buffer at slot `old_size` before any existing
element is relocated; consequently, if constructing the new element throws
(`mk = none`), the vector — its buffer, its size, and every existing
element — is left exactly as it was before the call. -/
theorem emplaceBack_ctor_throw_leaves_vector_untouched {T : Type}
    (v : SimpleVector T) (hfull : v.size = v.data.length) :
    SimpleVector.EmplaceBack v none = .failed v := by
  unfold SimpleVector.EmplaceBack
  rw [if_neg (by omega)]

/-- Witness for C7 at the full vector `[3]`. -/
theorem emplaceBack_ctor_throw_witness :
    SimpleVector.EmplaceBack (⟨[some 3], 1⟩ : SimpleVector Nat) none =
      .failed ⟨[some 3], 1⟩ :=
  emplaceBack_ctor_throw_leaves_vector_untouched ⟨[some 3], 1⟩ rfl

/-- Claim C8: on a well-formed vector holding the elements `l`, `Insert`
(= `Emplace`) of `x` at any position `pos ≤ size` followed immediately by
`Erase` at `pos` succeeds and restores exactly the original element
sequence (same size, same values, same order). -/
theorem insert_then_erase_restores {T : Type} {v : SimpleVector T}
    {l : List T} {pos : Nat} (x : T) (h : WF v l) (hpos : pos ≤ l.length) :
    ∃ v1 v2, SimpleVector.Emplace v pos x = some v1 ∧
      SimpleVector.Erase v1 pos = some v2 ∧ WF v2 l := by
  obtain ⟨v1, hemp, hwf1⟩ := emplace_WF x h hpos
  have hlen1 : (l.take pos ++ x :: l.drop pos).length = l.length + 1 := by
    rw [List.length_append, List.length_take, List.length_cons,
      List.length_drop]
    omega
  obtain ⟨v2, hera, hwf2⟩ :=
    @erase_WF T v1 (l.take pos ++ x :: l.drop pos) pos hwf1
      (by rw [hlen1]; omega)
  refine ⟨v1, v2, hemp, hera, ?_⟩
  have hE : (l.take pos ++ x :: l.drop pos).take pos ++
      (l.take pos ++ x :: l.drop pos).drop (pos + 1) = l := by
    apply List.ext_getElem?
    intro j
    rw [delAt _ pos (by rw [hlen1]; omega) j]
    by_cases h1 : j < pos
    · rw [if_pos h1, insAt l x pos hpos j, if_pos h1]
    · rw [if_neg h1, insAt l x pos hpos (j + 1), if_neg (by omega),
        if_neg (by omega)]
      congr 1
  rw [hE] at hwf2
  exact hwf2

/-- Witness for C8: insert 42 at position 1 of `[1, 2, 3]`, then erase at
position 1. -/
theorem insert_then_erase_restores_witness :
    ∃ v1 v2,
      SimpleVector.Emplace (⟨[some 1, some 2, some 3], 3⟩ : SimpleVector Nat)
        1 42 = some v1 ∧
      SimpleVector.Erase v1 1 = some v2 ∧ WF v2 [1, 2, 3] :=
  insert_then_erase_restores 42 ⟨0, rfl, rfl⟩ (by decide)

/-- Claim C9: `size ≤ capacity` holds for every vector reachable by any
sequence of the container's operations under their preconditions. -/
theorem reachable_size_le_capacity {T : Type} {v : SimpleVector T}
    (h : Reachable v) : v.size ≤ v.data.length := by
  induction h with
  | emptyCtor => exact Nat.le_refl 0
  | sizedCtor h => exact mkSized_bound h
  | copyCtorStep hu h ih => exact copyCtor_bound h
  | moveCtorDst hu ih => exact ih
  | moveCtorSrc hu ih => exact Nat.le_refl 0
  | copyAssignStep hu hr h ihu ihr => exact copyAssign_bound h
  | moveAssignDst hu hr ihu ihr => exact ihr
  | moveAssignSrc hu hr ihu ihr => exact ihu
  | reserveStep hu h ih =>
    obtain ⟨h1, h2, _⟩ := Reserve_bound ih h
    omega
  | resizeStep hu h ih => exact Resize_bound ih h
  | pushBackStep hu h ih => exact pushBack_bound h
  | emplaceBackStep hu h ih => exact emplaceBack_bound h
  | emplaceStep hu hp h ih => exact emplace_bound h
  | popBackStep hu hp h ih => exact popBack_bound ih h
  | eraseStep hu hp h ih => exact erase_bound ih h

/-- Witness for C9 at the default-constructed vector. -/
theorem reachable_size_le_capacity_witness :
    (SimpleVector.empty Nat).size ≤ (SimpleVector.empty Nat).data.length :=
  reachable_size_le_capacity Reachable.emptyCtor

/-- Claim C10: both assignment operators start with the `this != &rhs`
guard, so self-assignment (the aliasing flag set) is a no-op: the vector is
returned unchanged and no element is destroyed, constructed or assigned. -/
theorem self_assignment_noop {T : Type} (v : SimpleVector T) :
    SimpleVector.copyAssignOp v v true = some v ∧
    SimpleVector.moveAssignOp v v true = (v, v) :=
  ⟨rfl, rfl⟩
